import Mathlib

/-!
Verification of the docked-application state machine of `src/dock.py`
(mate-dock-applet).  Pure Lean embeddings of the list-manipulating logic of
the `Dock` class and its helper timer classes, together with theorems about
the dock's documented invariants.
-/

namespace MateDock

/-- Embedding of `os.path.basename`: the characters of the path after the
final slash (empty when the path ends in a slash), computed by a fold that
restarts its accumulator at every slash. -/
def basename (p : String) : String :=
  String.mk (p.data.foldl (fun acc c => if c = '/' then [] else acc ++ [c]) [])

namespace Matching

/-- View of a `Bamf.Application` as consumed by `Dock.match_bamf_app_to_dock_app`:
an identity handle plus the desktop file reported by `get_desktop_file()`. -/
structure BamfApp where
  handle : Nat
  desktop_file : Option String
deriving Repr, DecidableEq

/-- Modelled from the spec: the identity fields of a `DockedApp`
(`docked_app.DockedApp` is not part of this source file; the spec's data model
gives an optional desktop-entry-file path, an optional matcher handle and the
`is_pinned` membership flag).  `bamf_app` stores the handle of the attached
`Bamf.Application`, `none` when no matcher handle is attached. -/
structure DockedApp where
  desktop_file : Option String
  bamf_app : Option Nat
  is_pinned : Bool
deriving Repr, DecidableEq

/-- Embedding of `Dock.get_docked_app_by_desktop_file`: scan `app_list` for the
first app whose desktop file basename equals the basename of `dfname`; entries
without a desktop file are skipped. -/
def get_docked_app_by_desktop_file (app_list : List DockedApp) (dfname : String) :
    Option DockedApp :=
  app_list.find? fun app =>
    match app.desktop_file with
    | some f => basename f == basename dfname
    | none => false

/-- Embedding of `Dock.get_docked_app_by_bamf_app`: scan `app_list` for the
first app holding the given matcher handle (`app.has_bamf_app(bamf_app)` is
modelled as equality of the stored handle). -/
def get_docked_app_by_bamf_app (app_list : List DockedApp) (b : Nat) :
    Option DockedApp :=
  app_list.find? fun app => app.bamf_app == some b

/-- Effect on `app_list` of the desktop-file branch of
`Dock.match_bamf_app_to_dock_app`: the first entry whose desktop-file basename
matches gets `set_bamf_app(b_app)` applied, guarded by `dock_app.bamf_app is
None`; every other entry is untouched. -/
def attach_bamf_by_desktop_file : List DockedApp → String → Nat → List DockedApp
  | [], _, _ => []
  | app :: rest, dfname, b =>
    match app.desktop_file with
    | some f =>
      if basename f == basename dfname then
        (if app.bamf_app = none then { app with bamf_app := some b } else app) :: rest
      else
        app :: attach_bamf_by_desktop_file rest dfname b
    | none => app :: attach_bamf_by_desktop_file rest dfname b

/-- Embedding of `Dock.match_bamf_app_to_dock_app`, restricted to its effect on
`app_list`.  When the Bamf application reports a desktop file, only the
desktop-file match is attempted; otherwise only the matcher-handle match is
attempted.  When no match is found a new unpinned entry is appended; for an
application with a desktop file the append happens only when
`read_info_from_desktop_file` succeeds, which is modelled by the oracle
`read_ok`. -/
def match_bamf_app_to_dock_app (read_ok : String → Bool)
    (app_list : List DockedApp) (b : BamfApp) : List DockedApp :=
  match b.desktop_file with
  | some d =>
    match get_docked_app_by_desktop_file app_list d with
    | some _ => attach_bamf_by_desktop_file app_list d b.handle
    | none =>
      if read_ok d then
        app_list ++ [{ desktop_file := some d, bamf_app := some b.handle, is_pinned := false }]
      else
        app_list
  | none =>
    match get_docked_app_by_bamf_app app_list b.handle with
    | some _ => app_list
    | none =>
      app_list ++ [{ desktop_file := none, bamf_app := some b.handle, is_pinned := false }]

/-- Effect on `app_list` of `Dock.view_closed` for a closing
`Bamf.Application`: the first entry holding the closing handle is kept when it
is pinned (only its flags change) or still running, and removed otherwise.
Whether the matcher still reports the application as running is an input from
the environment. -/
def view_closed : List DockedApp → Nat → Bool → List DockedApp
  | [], _, _ => []
  | app :: rest, h, still_running =>
    if app.bamf_app == some h then
      if app.is_pinned then app :: rest
      else if still_running then app :: rest
      else rest
    else
      app :: view_closed rest h still_running

/-- An application-opened or application-closed event as delivered by the
matcher (`view_opened` / `view_closed` signal handlers). -/
inductive DockEvent where
  | opened (b : BamfApp)
  | closed (handle : Nat) (still_running : Bool)
deriving Repr, DecidableEq

/-- One event-processing step of the dock. -/
def dockStep (read_ok : String → Bool) (l : List DockedApp) : DockEvent → List DockedApp
  | .opened b => match_bamf_app_to_dock_app read_ok l b
  | .closed h r => view_closed l h r

/-- Process a sequence of application opened/closed events in arrival order. -/
def dockRun (read_ok : String → Bool) (l : List DockedApp) (evs : List DockEvent) :
    List DockedApp :=
  evs.foldl (dockStep read_ok) l

/-- Desktop-file identity key of an entry: the basename of its desktop file. -/
def dfKey (app : DockedApp) : Option String :=
  app.desktop_file.map basename

/-- No two entries of the list resolve to the same desktop-file basename. -/
def distinctDesktop (l : List DockedApp) : Prop :=
  l.Pairwise fun a b => ∀ d, dfKey a = some d → dfKey b ≠ some d

/-- No two entries of the list hold the same matcher handle. -/
def distinctBamf (l : List DockedApp) : Prop :=
  l.Pairwise fun a b => ∀ i, a.bamf_app = some i → b.bamf_app ≠ some i

/-- Every attached matcher handle agrees with its entry's desktop-file key,
where `df` gives the desktop file the matcher reports for each handle. -/
def bamfConsistent (df : Nat → Option String) (l : List DockedApp) : Prop :=
  ∀ app ∈ l, ∀ i, app.bamf_app = some i → dfKey app = (df i).map basename

/-- The no-duplicates invariant of the dock's ordered list, strengthened with
the consistency of attached handles. -/
def DockInv (df : Nat → Option String) (l : List DockedApp) : Prop :=
  distinctDesktop l ∧ distinctBamf l ∧ bamfConsistent df l

/-- Well-formedness of an event: an opened event reports the desktop file that
the environment associates to the application's handle. -/
def eventWF (df : Nat → Option String) : DockEvent → Prop
  | .opened b => b.desktop_file = df b.handle
  | .closed _ _ => True

theorem dfKey_mk_bamf (a : DockedApp) (i : Nat) :
    dfKey { a with bamf_app := some i } = dfKey a := rfl

theorem desktop_lookup_none {l : List DockedApp} {d : String}
    (h : get_docked_app_by_desktop_file l d = none) :
    ∀ a ∈ l, dfKey a ≠ some (basename d) := by
  intro a ha
  rw [get_docked_app_by_desktop_file, List.find?_eq_none] at h
  have hp := h a ha
  cases hdf : a.desktop_file with
  | none => simp [dfKey, hdf]
  | some f =>
    rw [hdf] at hp
    simp only [beq_iff_eq] at hp
    simp [dfKey, hdf]
    intro heq
    exact hp heq

theorem bamf_lookup_none {l : List DockedApp} {i : Nat}
    (h : get_docked_app_by_bamf_app l i = none) :
    ∀ a ∈ l, a.bamf_app ≠ some i := by
  intro a ha
  rw [get_docked_app_by_bamf_app, List.find?_eq_none] at h
  have hp := h a ha
  simpa using hp

theorem mem_attach_cases {l : List DockedApp} {d : String} {i : Nat} {b' : DockedApp}
    (h : b' ∈ attach_bamf_by_desktop_file l d i) :
    b' ∈ l ∨ ∃ b₀ ∈ l, b₀.bamf_app = none ∧ dfKey b₀ = some (basename d) ∧
      b' = { b₀ with bamf_app := some i } := by
  induction l with
  | nil => simp [attach_bamf_by_desktop_file] at h
  | cons app rest ih =>
    cases hdf : app.desktop_file with
    | none =>
      simp only [attach_bamf_by_desktop_file, hdf] at h
      rcases List.mem_cons.1 h with h1 | h1
      · exact Or.inl (by simp [h1])
      · rcases ih h1 with h2 | ⟨b₀, hb₀, h3, h4, h5⟩
        · exact Or.inl (List.mem_cons_of_mem _ h2)
        · exact Or.inr ⟨b₀, List.mem_cons_of_mem _ hb₀, h3, h4, h5⟩
    | some f =>
      simp only [attach_bamf_by_desktop_file, hdf] at h
      by_cases hbeq : basename f == basename d
      · rw [if_pos hbeq] at h
        rcases List.mem_cons.1 h with h1 | h1
        · by_cases hb : app.bamf_app = none
          · rw [if_pos hb] at h1
            refine Or.inr ⟨app, List.mem_cons_self _ _, hb, ?_, by rw [hdf]; exact h1⟩
            rw [dfKey, hdf]
            show some (basename f) = some (basename d)
            rw [beq_iff_eq.1 hbeq]
          · rw [if_neg hb] at h1
            exact Or.inl (by simp [h1])
        · exact Or.inl (List.mem_cons_of_mem _ h1)
      · rw [if_neg hbeq] at h
        rcases List.mem_cons.1 h with h1 | h1
        · exact Or.inl (by simp [h1])
        · rcases ih h1 with h2 | ⟨b₀, hb₀, h3, h4, h5⟩
          · exact Or.inl (List.mem_cons_of_mem _ h2)
          · exact Or.inr ⟨b₀, List.mem_cons_of_mem _ hb₀, h3, h4, h5⟩

theorem attach_length (l : List DockedApp) (d : String) (i : Nat) :
    (attach_bamf_by_desktop_file l d i).length = l.length := by
  induction l with
  | nil => rfl
  | cons app rest ih =>
    cases hdf : app.desktop_file with
    | none =>
      simp only [attach_bamf_by_desktop_file, hdf, List.length_cons]
      rw [ih]
    | some f =>
      simp only [attach_bamf_by_desktop_file, hdf]
      by_cases hbeq : basename f == basename d
      · rw [if_pos hbeq]
        simp
      · rw [if_neg hbeq]
        simp only [List.length_cons]
        rw [ih]

theorem distinctDesktop_attach {l : List DockedApp} {d : String} {i : Nat}
    (h : distinctDesktop l) : distinctDesktop (attach_bamf_by_desktop_file l d i) := by
  induction l with
  | nil => exact h
  | cons app rest ih =>
    rw [distinctDesktop, List.pairwise_cons] at h
    rw [distinctDesktop]
    cases hdf : app.desktop_file with
    | none =>
      simp only [attach_bamf_by_desktop_file, hdf]
      rw [List.pairwise_cons]
      constructor
      · intro b hb dd hdd
        rcases mem_attach_cases hb with h1 | ⟨b₀, hb₀, _, _, h5⟩
        · exact h.1 b h1 dd hdd
        · rw [h5, dfKey_mk_bamf]
          exact h.1 b₀ hb₀ dd hdd
      · exact ih h.2
    | some f =>
      simp only [attach_bamf_by_desktop_file, hdf]
      by_cases hbeq : basename f == basename d
      · rw [if_pos hbeq, List.pairwise_cons]
        refine ⟨?_, h.2⟩
        intro b hb dd hdd
        by_cases hba : app.bamf_app = none
        · rw [if_pos hba] at hdd
          refine h.1 b hb dd ?_
          rw [dfKey, hdf]
          exact hdd
        · rw [if_neg hba] at hdd
          exact h.1 b hb dd hdd
      · rw [if_neg hbeq, List.pairwise_cons]
        constructor
        · intro b hb dd hdd
          rcases mem_attach_cases hb with h1 | ⟨b₀, hb₀, _, _, h5⟩
          · exact h.1 b h1 dd hdd
          · rw [h5, dfKey_mk_bamf]
            exact h.1 b₀ hb₀ dd hdd
        · exact ih h.2

theorem distinctBamf_attach {l : List DockedApp} {d : String} {i : Nat}
    (hdd : distinctDesktop l) (hdb : distinctBamf l)
    (hkey : ∀ e ∈ l, e.bamf_app = some i → dfKey e = some (basename d)) :
    distinctBamf (attach_bamf_by_desktop_file l d i) := by
  induction l with
  | nil => exact hdb
  | cons app rest ih =>
    rw [distinctDesktop, List.pairwise_cons] at hdd
    rw [distinctBamf, List.pairwise_cons] at hdb
    rw [distinctBamf]
    cases hdf : app.desktop_file with
    | none =>
      simp only [attach_bamf_by_desktop_file, hdf]
      rw [List.pairwise_cons]
      constructor
      · intro b hb j hj
        rcases mem_attach_cases hb with h1 | ⟨b₀, hb₀, _, _, h5⟩
        · exact hdb.1 b h1 j hj
        · rw [h5]
          simp only [ne_eq, Option.some_inj]
          intro hij
          rw [← hij] at hj
          have := hkey app (List.mem_cons_self _ _) hj
          rw [dfKey, hdf] at this
          exact Option.noConfusion this
      · exact ih hdd.2 hdb.2 fun e he hei => hkey e (List.mem_cons_of_mem _ he) hei
    | some f =>
      simp only [attach_bamf_by_desktop_file, hdf]
      by_cases hbeq : basename f == basename d
      · rw [if_pos hbeq, List.pairwise_cons]
        by_cases hba : app.bamf_app = none
        · rw [if_pos hba]
          refine ⟨?_, hdb.2⟩
          intro b hb j hj
          simp only [ne_eq, Option.some_inj] at hj ⊢
          intro hbj
          rw [← hj] at hbj
          have hkb := hkey b (List.mem_cons_of_mem _ hb) hbj
          have hka : dfKey app = some (basename d) := by
            rw [dfKey, hdf]
            show some (basename f) = some (basename d)
            rw [beq_iff_eq.1 hbeq]
          exact hdd.1 b hb (basename d) hka hkb
        · rw [if_neg hba]
          exact ⟨hdb.1, hdb.2⟩
      · rw [if_neg hbeq, List.pairwise_cons]
        constructor
        · intro b hb j hj
          rcases mem_attach_cases hb with h1 | ⟨b₀, hb₀, _, _, h5⟩
          · exact hdb.1 b h1 j hj
          · rw [h5]
            simp only [ne_eq, Option.some_inj]
            intro hij
            rw [← hij] at hj
            have := hkey app (List.mem_cons_self _ _) hj
            rw [dfKey, hdf] at this
            have hfb := Option.some.inj (show some (basename f) = some (basename d) from this)
            exact hbeq (beq_iff_eq.2 hfb)
        · exact ih hdd.2 hdb.2 fun e he hei => hkey e (List.mem_cons_of_mem _ he) hei

theorem bamfConsistent_attach {df : Nat → Option String} {l : List DockedApp}
    {d : String} {i : Nat} (hc : bamfConsistent df l)
    (hdfi : (df i).map basename = some (basename d)) :
    bamfConsistent df (attach_bamf_by_desktop_file l d i) := by
  intro e he j hej
  rcases mem_attach_cases he with h1 | ⟨b₀, hb₀, _, h4, h5⟩
  · exact hc e h1 j hej
  · rw [h5] at hej ⊢
    simp only [Option.some_inj] at hej
    rw [dfKey_mk_bamf, ← hej, hdfi, h4]

theorem view_closed_sublist (l : List DockedApp) (h : Nat) (r : Bool) :
    List.Sublist (view_closed l h r) l := by
  induction l with
  | nil => exact List.Sublist.refl _
  | cons app rest ih =>
    rw [view_closed]
    by_cases hb : app.bamf_app == some h
    · rw [if_pos hb]
      by_cases hp : app.is_pinned
      · rw [if_pos hp]
      · rw [if_neg hp]
        by_cases hr : r = true
        · rw [if_pos hr]
        · rw [if_neg hr]
          exact List.sublist_cons_self _ _
    · rw [if_neg hb]
      exact ih.cons₂ _

theorem dockInv_sublist {df : Nat → Option String} {l l' : List DockedApp}
    (hs : List.Sublist l' l) (h : DockInv df l) : DockInv df l' :=
  ⟨h.1.sublist hs, h.2.1.sublist hs, fun a ha => h.2.2 a (hs.subset ha)⟩

theorem dockInv_step (df : Nat → Option String) (ro : String → Bool)
    {l : List DockedApp} (e : DockEvent) (hinv : DockInv df l) (hwf : eventWF df e) :
    DockInv df (dockStep ro l e) := by
  obtain ⟨hdd, hdb, hc⟩ := hinv
  cases e with
  | closed h r => exact dockInv_sublist (view_closed_sublist l h r) ⟨hdd, hdb, hc⟩
  | opened b =>
    rw [eventWF] at hwf
    cases hdfb : b.desktop_file with
    | none =>
      have hdfi : df b.handle = none := (hdfb ▸ hwf).symm
      cases hfind : get_docked_app_by_bamf_app l b.handle with
      | some a =>
        simp only [dockStep, match_bamf_app_to_dock_app, hdfb, hfind]
        exact ⟨hdd, hdb, hc⟩
      | none =>
        simp only [dockStep, match_bamf_app_to_dock_app, hdfb, hfind]
        have hfresh := bamf_lookup_none hfind
        refine ⟨?_, ?_, ?_⟩
        · rw [distinctDesktop, List.pairwise_append]
          exact ⟨hdd, List.pairwise_singleton _ _, by simp [dfKey]⟩
        · rw [distinctBamf, List.pairwise_append]
          refine ⟨hdb, List.pairwise_singleton _ _, ?_⟩
          intro a ha b' hb' j hj
          simp only [List.mem_singleton] at hb'
          rw [hb']
          simp only [ne_eq, Option.some_inj]
          intro hjb
          exact hfresh a ha (hjb ▸ hj)
        · intro a ha j hj
          rcases List.mem_append.1 ha with h1 | h1
          · exact hc a h1 j hj
          · simp only [List.mem_singleton] at h1
            rw [h1] at hj ⊢
            simp only [Option.some_inj] at hj
            rw [← hj, hdfi]
            rfl
    | some d =>
      have hdfi : df b.handle = some d := (hdfb ▸ hwf).symm
      cases hfind : get_docked_app_by_desktop_file l d with
      | some a =>
        simp only [dockStep, match_bamf_app_to_dock_app, hdfb, hfind]
        have hkey : ∀ e ∈ l, e.bamf_app = some b.handle → dfKey e = some (basename d) := by
          intro e he hei
          rw [hc e he b.handle hei, hdfi]
          rfl
        exact ⟨distinctDesktop_attach hdd, distinctBamf_attach hdd hdb hkey,
          bamfConsistent_attach hc (by rw [hdfi]; rfl)⟩
      | none =>
        by_cases hro : ro d = true
        · simp only [dockStep, match_bamf_app_to_dock_app, hdfb, hfind, if_pos hro]
          have hfresh := desktop_lookup_none hfind
          refine ⟨?_, ?_, ?_⟩
          · rw [distinctDesktop, List.pairwise_append]
            refine ⟨hdd, List.pairwise_singleton _ _, ?_⟩
            intro a ha b' hb' dd hdda
            simp only [List.mem_singleton] at hb'
            rw [hb']
            show some (basename d) ≠ some dd
            intro hdb'
            exact hfresh a ha (by rw [hdda, Option.some.inj hdb'])
          · rw [distinctBamf, List.pairwise_append]
            refine ⟨hdb, List.pairwise_singleton _ _, ?_⟩
            intro a ha b' hb' j hj
            simp only [List.mem_singleton] at hb'
            rw [hb']
            simp only [ne_eq, Option.some_inj]
            intro hjb
            have := hc a ha j hj
            rw [← hjb, hdfi] at this
            exact hfresh a ha this
          · intro a ha j hj
            rcases List.mem_append.1 ha with h1 | h1
            · exact hc a h1 j hj
            · simp only [List.mem_singleton] at h1
              rw [h1] at hj ⊢
              simp only [Option.some_inj] at hj
              rw [← hj, hdfi]
              rfl
        · simp only [dockStep, match_bamf_app_to_dock_app, hdfb, hfind, if_neg hro]
          exact ⟨hdd, hdb, hc⟩

theorem dockInv_run (df : Nat → Option String) (ro : String → Bool)
    (l : List DockedApp) (evs : List DockEvent) (hinv : DockInv df l)
    (hwf : ∀ e ∈ evs, eventWF df e) : DockInv df (dockRun ro l evs) := by
  induction evs generalizing l with
  | nil => exact hinv
  | cons e rest ih =>
    rw [dockRun, List.foldl_cons]
    exact ih (dockStep ro l e)
      (dockInv_step df ro e hinv (hwf e (List.mem_cons_self _ _)))
      fun e' he' => hwf e' (List.mem_cons_of_mem _ he')

/-- C1: over any sequence of application opened/closed events, `app_list`
never holds two entries with the same desktop-file basename nor two entries
with the same matcher handle; moreover, when the desktop-file match succeeds
no entry is appended (the existing entry is only updated), and when the
matcher-handle match succeeds (tried only for applications without a desktop
file, so the desktop-file match takes priority) the list is unchanged. -/
theorem no_duplicate_entries :
    (∀ (df : Nat → Option String) (ro : String → Bool) (l : List DockedApp)
        (evs : List DockEvent), DockInv df l → (∀ e ∈ evs, eventWF df e) →
        distinctDesktop (dockRun ro l evs) ∧ distinctBamf (dockRun ro l evs)) ∧
    (∀ (ro : String → Bool) (l : List DockedApp) (b : BamfApp) (d : String),
        b.desktop_file = some d → (get_docked_app_by_desktop_file l d).isSome →
        (match_bamf_app_to_dock_app ro l b).length = l.length) ∧
    (∀ (ro : String → Bool) (l : List DockedApp) (b : BamfApp),
        b.desktop_file = none → (get_docked_app_by_bamf_app l b.handle).isSome →
        match_bamf_app_to_dock_app ro l b = l) := by
  refine ⟨?_, ?_, ?_⟩
  · intro df ro l evs hinv hwf
    have h := dockInv_run df ro l evs hinv hwf
    exact ⟨h.1, h.2.1⟩
  · intro ro l b d hdfb hsome
    obtain ⟨a, ha⟩ := Option.isSome_iff_exists.1 hsome
    simp only [match_bamf_app_to_dock_app, hdfb, ha]
    exact attach_length l d b.handle
  · intro ro l b hdfb hsome
    obtain ⟨a, ha⟩ := Option.isSome_iff_exists.1 hsome
    simp only [match_bamf_app_to_dock_app, hdfb, ha]

/-- Witness for C1 at a concrete run: the same application (handle 0, desktop
file reported through two opened events) never yields duplicate entries. -/
theorem no_duplicate_entries_witness :
    DockInv (fun h => if h == 0 then some "apps/editor.desktop" else none) [] ∧
    (∀ e ∈ ([DockEvent.opened ⟨0, some "apps/editor.desktop"⟩,
             DockEvent.opened ⟨0, some "apps/editor.desktop"⟩,
             DockEvent.closed 0 false] : List DockEvent),
        eventWF (fun h => if h == 0 then some "apps/editor.desktop" else none) e) ∧
    (distinctDesktop (dockRun (fun _ => true) []
        [DockEvent.opened ⟨0, some "apps/editor.desktop"⟩,
         DockEvent.opened ⟨0, some "apps/editor.desktop"⟩,
         DockEvent.closed 0 false]) ∧
     distinctBamf (dockRun (fun _ => true) []
        [DockEvent.opened ⟨0, some "apps/editor.desktop"⟩,
         DockEvent.opened ⟨0, some "apps/editor.desktop"⟩,
         DockEvent.closed 0 false])) := by
  have hinv : DockInv (fun h => if h == 0 then some "apps/editor.desktop" else none) [] :=
    ⟨List.Pairwise.nil, List.Pairwise.nil, fun a ha => absurd ha (List.not_mem_nil a)⟩
  have hwf : ∀ e ∈ ([DockEvent.opened ⟨0, some "apps/editor.desktop"⟩,
             DockEvent.opened ⟨0, some "apps/editor.desktop"⟩,
             DockEvent.closed 0 false] : List DockEvent),
      eventWF (fun h => if h == 0 then some "apps/editor.desktop" else none) e := by
    intro e he
    fin_cases he <;> trivial
  exact ⟨hinv, hwf, no_duplicate_entries.1 _ _ [] _ hinv hwf⟩

theorem desktop_lookup_key {l : List DockedApp} {d : String} :
    get_docked_app_by_desktop_file l d =
      l.find? fun app => dfKey app == some (basename d) := by
  rw [get_docked_app_by_desktop_file]
  congr 1
  funext app
  cases h : app.desktop_file with
  | none => simp [dfKey, h]
  | some f => simp [dfKey, h]

/-- C10: entry lookup by desktop file ignores directory components: it returns
the first entry of `app_list` whose desktop-file basename equals the basename
of the argument (entries without a desktop file never match), so any two paths
with the same basename resolve to the same dock entry. -/
theorem get_docked_app_by_desktop_file_spec :
    ∀ (l : List DockedApp) (d : String),
      (get_docked_app_by_desktop_file l d =
        l.find? fun app => dfKey app == some (basename d)) ∧
      (get_docked_app_by_desktop_file l d = none ↔
        ∀ app ∈ l, dfKey app ≠ some (basename d)) ∧
      (∀ d', basename d = basename d' →
        get_docked_app_by_desktop_file l d = get_docked_app_by_desktop_file l d') := by
  intro l d
  refine ⟨desktop_lookup_key, ?_, ?_⟩
  · rw [desktop_lookup_key, List.find?_eq_none]
    constructor
    · intro h app ha
      have := h app ha
      simpa using this
    · intro h app ha
      simpa using h app ha
  · intro d' hbase
    rw [desktop_lookup_key, desktop_lookup_key, hbase]

/-- Witness for C10: two desktop-file paths in different directories with the
same basename resolve to the same entry of a concrete dock list. -/
theorem get_docked_app_by_desktop_file_spec_witness :
    basename "gnome/pluma.desktop" = basename "mate/pluma.desktop" ∧
    get_docked_app_by_desktop_file
        [⟨some "usr/pluma.desktop", none, true⟩, ⟨none, some 3, false⟩]
        "gnome/pluma.desktop" =
      get_docked_app_by_desktop_file
        [⟨some "usr/pluma.desktop", none, true⟩, ⟨none, some 3, false⟩]
        "mate/pluma.desktop" :=
  ⟨rfl, (get_docked_app_by_desktop_file_spec
      [⟨some "usr/pluma.desktop", none, true⟩, ⟨none, some 3, false⟩]
      "gnome/pluma.desktop").2.2 "mate/pluma.desktop" rfl⟩

end Matching

namespace WindowLifecycle

/-- Window kinds reported by the matcher (`Bamf.WindowType`; only `NORMAL`
and `DIALOG` windows keep an unpinned entry in the dock). -/
inductive WinType where
  | normal
  | dialog
  | other
deriving Repr, DecidableEq

/-- A window as seen by the `window-removed` handler: an identity and a
window type. -/
structure BamfWindow where
  xid : Nat
  wtype : WinType
deriving Repr, DecidableEq

/-- Modelled from the spec: the state of a docked entry read by the window
lifecycle handlers - the owning application handle, the pinned flag and the
ordered collection of windows the matcher still reports for it. -/
structure WinApp where
  handle : Nat
  is_pinned : Bool
  windows : List BamfWindow
deriving Repr, DecidableEq

/-- Embedding of the `keep_in_dock` loop of `Dock.window_removed`: the entry
stays when some window other than the removed one is of normal or dialog
type. -/
def keep_in_dock (wins : List BamfWindow) (w : BamfWindow) : Bool :=
  wins.any fun win =>
    win != w && (win.wtype == WinType.normal || win.wtype == WinType.dialog)

/-- Embedding of `Dock.window_removed`, restricted to its effect on
`app_list`.  The first entry owning the closing application's handle is kept
when pinned; an unpinned entry of a still-running application is removed
unless another normal/dialog window remains; an unpinned entry of an
application that stopped running is left for `view_closed` to remove.
`still_running` is the live answer of `dock_app.is_running()`. -/
def window_removed : List WinApp → Nat → BamfWindow → Bool → List WinApp
  | [], _, _, _ => []
  | app :: rest, h, w, still_running =>
    if app.handle == h then
      if app.is_pinned then app :: rest
      else if still_running then
        if keep_in_dock app.windows w then app :: rest else rest
      else app :: rest
    else app :: window_removed rest h w still_running

/-- Embedding of `Dock.view_closed` for a closing application, restricted to
its effect on `app_list`: a pinned entry is kept (flags change only), an
unpinned entry of a still-running application is kept, any other entry is
removed. -/
def view_closed : List WinApp → Nat → Bool → List WinApp
  | [], _, _ => []
  | app :: rest, h, still_running =>
    if app.handle == h then
      if app.is_pinned then app :: rest
      else if still_running then app :: rest
      else rest
    else app :: view_closed rest h still_running

/-- One full event-processing step for the removal of window `w` of the
application with handle `h`: the matcher delivers `window-removed`, followed
by `view-closed` for the application when it stopped running. -/
def window_removal_step (l : List WinApp) (h : Nat) (w : BamfWindow)
    (still_running : Bool) : List WinApp :=
  let l1 := window_removed l h w still_running
  if still_running then l1 else view_closed l1 h false

/-- The first entry of the list owning handle `h`. -/
def find_by_handle (l : List WinApp) (h : Nat) : Option WinApp :=
  l.find? fun app => app.handle == h

/-- Removal of the first entry owning handle `h` (the effect of
`remove_app_from_dock` on `app_list`). -/
def remove_by_handle : List WinApp → Nat → List WinApp
  | [], _ => []
  | app :: rest, h => if app.handle == h then rest else app :: remove_by_handle rest h

theorem window_removed_cons_ne {a : WinApp} {rest : List WinApp} {h : Nat}
    {w : BamfWindow} {r : Bool} (hh : (a.handle == h) = false) :
    window_removed (a :: rest) h w r = a :: window_removed rest h w r := by
  rw [window_removed, if_neg (by simp [hh])]

theorem view_closed_cons_ne {a : WinApp} {rest : List WinApp} {h : Nat}
    {r : Bool} (hh : (a.handle == h) = false) :
    view_closed (a :: rest) h r = a :: view_closed rest h r := by
  rw [view_closed, if_neg (by simp [hh])]

theorem remove_by_handle_cons_ne {a : WinApp} {rest : List WinApp} {h : Nat}
    (hh : (a.handle == h) = false) :
    remove_by_handle (a :: rest) h = a :: remove_by_handle rest h := by
  rw [remove_by_handle, if_neg (by simp [hh])]

theorem window_removal_step_cons_ne {a : WinApp} {rest : List WinApp} {h : Nat}
    {w : BamfWindow} {r : Bool} (hh : (a.handle == h) = false) :
    window_removal_step (a :: rest) h w r = a :: window_removal_step rest h w r := by
  cases r with
  | true =>
    simp only [window_removal_step, if_pos]
    exact window_removed_cons_ne hh
  | false =>
    simp only [window_removal_step, Bool.false_eq_true, if_neg, not_false_iff]
    rw [window_removed_cons_ne hh, view_closed_cons_ne hh]

/-- C2: in the event-processing step for the removal of a window, the entry
owning the window is removed from `app_list` exactly when it is unpinned and
no other normal/dialog window remains open for it, and a pinned entry is kept
in the list.  The hypothesis ties the live `is_running()` answer to the
spec's consistency requirement: an application no longer running has no
remaining normal/dialog window. -/
theorem unpinned_cleanup :
    ∀ (l : List WinApp) (h : Nat) (w : BamfWindow) (r : Bool) (app : WinApp),
      find_by_handle l h = some app →
      (r = false → keep_in_dock app.windows w = false) →
      window_removal_step l h w r =
        if app.is_pinned || keep_in_dock app.windows w then l
        else remove_by_handle l h := by
  intro l h w r app hfind hcons
  induction l with
  | nil => simp [find_by_handle] at hfind
  | cons a rest ih =>
    rw [find_by_handle, List.find?_cons] at hfind
    by_cases hh : a.handle == h
    · simp only [hh] at hfind
      have ha : a = app := Option.some.inj hfind
      subst ha
      by_cases hp : a.is_pinned
      · cases r with
        | true =>
          simp [window_removal_step, window_removed, hh, hp]
        | false =>
          simp [window_removal_step, window_removed, view_closed, hh, hp]
      · by_cases hk : keep_in_dock a.windows w
        · cases r with
          | true =>
            simp [window_removal_step, window_removed, hh, hp, hk]
          | false =>
            exact absurd (hcons rfl) (by simp [hk])
        · cases r with
          | true =>
            simp [window_removal_step, window_removed, remove_by_handle, hh, hp, hk]
          | false =>
            simp [window_removal_step, window_removed, view_closed,
              remove_by_handle, hh, hp, hk]
    · simp only [Bool.not_eq_true] at hh
      simp only [hh] at hfind
      have hstep := ih hfind
      rw [window_removal_step_cons_ne hh, hstep]
      by_cases hpk : app.is_pinned || keep_in_dock app.windows w
      · rw [if_pos hpk, if_pos hpk]
      · rw [if_neg hpk, if_neg hpk, remove_by_handle_cons_ne hh]

/-- Witness for C2: an unpinned entry whose only normal window is removed
disappears from a concrete list; the pinned neighbour stays. -/
theorem unpinned_cleanup_witness :
    find_by_handle
        [⟨1, true, [⟨10, WinType.normal⟩]⟩, ⟨2, false, [⟨20, WinType.normal⟩]⟩] 2 =
      some ⟨2, false, [⟨20, WinType.normal⟩]⟩ ∧
    (false = false → keep_in_dock [⟨20, WinType.normal⟩] ⟨20, WinType.normal⟩ = false) ∧
    window_removal_step
        [⟨1, true, [⟨10, WinType.normal⟩]⟩, ⟨2, false, [⟨20, WinType.normal⟩]⟩]
        2 ⟨20, WinType.normal⟩ false =
      if (⟨2, false, [⟨20, WinType.normal⟩]⟩ : WinApp).is_pinned ||
          keep_in_dock [⟨20, WinType.normal⟩] ⟨20, WinType.normal⟩ then
        [⟨1, true, [⟨10, WinType.normal⟩]⟩, ⟨2, false, [⟨20, WinType.normal⟩]⟩]
      else
        remove_by_handle
          [⟨1, true, [⟨10, WinType.normal⟩]⟩, ⟨2, false, [⟨20, WinType.normal⟩]⟩] 2 :=
  ⟨by decide, fun _ => by decide,
    unpinned_cleanup _ 2 ⟨20, WinType.normal⟩ false _ (by decide) (fun _ => by decide)⟩

end WindowLifecycle

namespace Scroll

/-- Scroll affordance directions (`docked_app.ScrollType`). -/
inductive ScrollType where
  | scroll_none
  | scroll_up
  | scroll_down
deriving Repr, DecidableEq

/-- Embedding of the scrolling branch of `Dock.remove_app_from_dock` (GTK3,
`nice_sizing` disabled): given the `scroll_index` before the removal, the
viewport capacity `dock_fixed_size`, the number of visible apps remaining
after the removal and the removed entry's visible index before the removal,
returns the new `scrolling` flag and the new `scroll_index`. -/
def remove_app_scroll_adjust (scroll_index dock_fixed_size total_visible : Int)
    (app_pos : Option Int) : Bool × Int :=
  if total_visible < dock_fixed_size then
    (false, scroll_index)
  else
    let do_scroll :=
      match app_pos with
      | some p => decide (p < scroll_index)
      | none => false
    if do_scroll || decide (scroll_index + dock_fixed_size ≥ total_visible) then
      (true, scroll_index - 1)
    else
      (true, scroll_index)

/-- Embedding of `Dock.do_app_scroll`, restricted to its effect on
`scroll_index`: the hovered app's scroll affordance decides; an up-scroll is
performed only when `scroll_index != 0`, a down-scroll only when
`scroll_index` is less than the number of visible apps; otherwise the state
is unchanged. -/
def do_app_scroll (dir : ScrollType) (scroll_index total_visible : Int) : Int :=
  match dir with
  | .scroll_up => if scroll_index ≠ 0 then scroll_index - 1 else scroll_index
  | .scroll_down => if scroll_index < total_visible then scroll_index + 1 else scroll_index
  | .scroll_none => scroll_index

/-- Embedding of `Dock.set_app_scroll_dirs(True)` (`nice_sizing` disabled):
the scroll affordance carried by the visible app at position `p`.  The app at
position `scroll_index` scrolls up when `scroll_index != 0` and it exists
(`get_visible_app` returns an app); the app at the far end of the viewport
scrolls down when hidden entries remain past it; nothing is set when fewer
than two icons fit. -/
def scroll_dir_at (scroll_index dock_fixed_size total_visible p : Int) : ScrollType :=
  if dock_fixed_size < 2 then .scroll_none
  else if p = scroll_index ∧ scroll_index ≠ 0 ∧ 0 ≤ scroll_index ∧
      scroll_index < total_visible then .scroll_up
  else if p = scroll_index + dock_fixed_size - 1 ∧
      0 ≤ scroll_index + dock_fixed_size - 1 ∧
      scroll_index + dock_fixed_size ≤ total_visible - 1 then .scroll_down
  else .scroll_none

/-- State of the scroll viewport: whether scrolling is enabled, the index of
the first visible entry, and the number of visible entries. -/
structure ScrollState where
  scrolling : Bool
  scroll_index : Int
  num_visible : Int
deriving Repr, DecidableEq

/-- The two cited operations touching `scroll_index`: a scroll request raised
by hovering the visible app at position `p`, and the removal of the visible
entry at index `p` (`none` when the removed entry had no visible index). -/
inductive ScrollEvent where
  | scroll (p : Int)
  | remove (p : Option Int)
deriving Repr, DecidableEq

/-- One step of the scroll state: `do_app_scroll` returns immediately when
scrolling is off; `remove_app_from_dock` runs its scroll branch only while
scrolling. -/
def scroll_step (k : Int) (s : ScrollState) : ScrollEvent → ScrollState
  | .scroll p =>
    if s.scrolling then
      let si' := do_app_scroll (scroll_dir_at s.scroll_index k s.num_visible p)
        s.scroll_index s.num_visible
      { s with scroll_index := si' }
    else s
  | .remove p =>
    if s.scrolling then
      let r := remove_app_scroll_adjust s.scroll_index k (s.num_visible - 1) p
      { scrolling := r.1, scroll_index := r.2, num_visible := s.num_visible - 1 }
    else
      { s with num_visible := s.num_visible - 1 }

/-- Process a sequence of scroll/removal events in order. -/
def scroll_run (k : Int) (s : ScrollState) (evs : List ScrollEvent) : ScrollState :=
  evs.foldl (scroll_step k) s

/-- A removal event names either no visible index or a valid one
(`get_visible_app_index` returns `None` or an index into the visible list). -/
def scrollEventOK (s : ScrollState) : ScrollEvent → Prop
  | .scroll _ => True
  | .remove p => p = none ∨ ∃ q, p = some q ∧ 0 ≤ q ∧ q < s.num_visible

/-- Well-formedness of a whole event trace from a given start state. -/
def scrollTraceOK (k : Int) (s : ScrollState) : List ScrollEvent → Prop
  | [] => True
  | e :: es => scrollEventOK s e ∧ scrollTraceOK k (scroll_step k s e) es

/-- The C3 invariant: whenever scrolling is active and the capacity is
exceeded, `scroll_index` lies between 0 and `N - K`. -/
def scrollInv (k : Int) (s : ScrollState) : Prop :=
  s.scrolling = true → k < s.num_visible →
    0 ≤ s.scroll_index ∧ s.scroll_index ≤ s.num_visible - k

theorem removal_scroll_adjust_some (si k n p : Int) (hkn : k ≤ n) :
    remove_app_scroll_adjust si k n (some p) =
      (true, if p < si ∨ si + k ≥ n then si - 1 else si) := by
  rw [remove_app_scroll_adjust, if_neg (by omega)]
  by_cases hd : p < si ∨ si + k ≥ n
  · rw [if_pos hd]
    simp only []
    rw [if_pos]
    rcases hd with hd | hd
    · simp [hd]
    · simp [hd]
  · rw [if_neg hd]
    push_neg at hd
    simp only []
    rw [if_neg]
    simp only [Bool.or_eq_true, decide_eq_true_eq]
    push_neg
    exact ⟨by omega, by omega⟩

theorem removal_scroll_adjust_none (si k n : Int) (hkn : k ≤ n) :
    remove_app_scroll_adjust si k n none =
      (true, if si + k ≥ n then si - 1 else si) := by
  rw [remove_app_scroll_adjust, if_neg (by omega)]
  by_cases hd : si + k ≥ n
  · rw [if_pos hd]
    simp only [Bool.false_or]
    rw [if_pos (by simpa using hd)]
  · rw [if_neg hd]
    simp only [Bool.false_or]
    rw [if_neg (by simpa using hd)]

theorem scroll_request_bounds (si k n p : Int) (h0 : 0 ≤ si) (hnk : si ≤ n - k) :
    (0 ≤ do_app_scroll (scroll_dir_at si k n p) si n ∧
     do_app_scroll (scroll_dir_at si k n p) si n ≤ n - k) ∧
    (si = 0 → do_app_scroll ScrollType.scroll_up si n = si) ∧
    (si = n - k → scroll_dir_at si k n p ≠ ScrollType.scroll_down) := by
  refine ⟨?_, ?_, ?_⟩
  · rw [scroll_dir_at]
    split_ifs with h1 h2 h3
    · rw [do_app_scroll]
      omega
    · rw [do_app_scroll, if_pos h2.2.1]
      omega
    · rw [do_app_scroll, if_pos (by omega)]
      omega
    · rw [do_app_scroll]
      omega
  · intro hsi
    rw [do_app_scroll, if_neg (by omega)]
  · intro hsi
    rw [scroll_dir_at]
    split_ifs with h1 h2 h3
    · intro hc
      exact ScrollType.noConfusion hc
    · intro hc
      exact ScrollType.noConfusion hc
    · omega
    · intro hc
      exact ScrollType.noConfusion hc

theorem scrollInv_step (k : Int) (s : ScrollState) (e : ScrollEvent)
    (h : scrollInv k s) (he : scrollEventOK s e) :
    scrollInv k (scroll_step k s e) := by
  cases e with
  | scroll p =>
    rw [scroll_step]
    by_cases hs : s.scrolling = true
    · rw [if_pos hs]
      intro _ hkn
      exact (scroll_request_bounds s.scroll_index k s.num_visible p
        (h hs hkn).1 (h hs hkn).2).1
    · rw [if_neg hs]
      exact h
  | remove p =>
    rw [scroll_step]
    by_cases hs : s.scrolling = true
    · rw [if_pos hs]
      intro _ hkn
      simp only at hkn ⊢
      have hkn' : k ≤ s.num_visible - 1 := by omega
      have hpre := h hs (by omega)
      rcases he with hp | ⟨q, hq, hq0, hqn⟩
      · rw [hp, removal_scroll_adjust_none _ _ _ hkn']
        by_cases hd : s.scroll_index + k ≥ s.num_visible - 1
        · rw [if_pos hd]
          omega
        · rw [if_neg hd]
          omega
      · rw [hq, removal_scroll_adjust_some _ _ _ _ hkn']
        by_cases hd : q < s.scroll_index ∨ s.scroll_index + k ≥ s.num_visible - 1
        · rw [if_pos hd]
          omega
        · rw [if_neg hd]
          omega
    · rw [if_neg hs]
      intro hsc
      exact absurd hsc hs

/-- C3: whenever scrolling is active with `N` visible entries and viewport
capacity `K < N`, `scroll_index` stays within `0 ≤ scroll_index ≤ N - K`
across any sequence of scroll requests and entry removals; and a scroll
request that would move past either end is rejected with the state unchanged
(an up request at index 0 does nothing, and no down affordance exists at
index `N - K`), rather than performed and clamped. -/
theorem scroll_boundary :
    (∀ (k : Int) (s : ScrollState) (evs : List ScrollEvent),
      scrollInv k s → scrollTraceOK k s evs → scrollInv k (scroll_run k s evs)) ∧
    (∀ (si k n p : Int), 0 ≤ si → si ≤ n - k →
      (0 ≤ do_app_scroll (scroll_dir_at si k n p) si n ∧
       do_app_scroll (scroll_dir_at si k n p) si n ≤ n - k) ∧
      (si = 0 → do_app_scroll ScrollType.scroll_up si n = si) ∧
      (si = n - k → scroll_dir_at si k n p ≠ ScrollType.scroll_down)) := by
  constructor
  · intro k s evs
    induction evs generalizing s with
    | nil => exact fun h _ => h
    | cons e rest ih =>
      intro h ht
      rw [scroll_run, List.foldl_cons]
      exact ih (scroll_step k s e) (scrollInv_step k s e h ht.1) ht.2
  · intro si k n p h0 hnk
    exact scroll_request_bounds si k n p h0 hnk

/-- Witness for C3: a concrete trace (scroll down, remove the entry at
visible index 1, scroll up at the start) keeps the invariant; concrete
boundary requests are rejected. -/
theorem scroll_boundary_witness :
    scrollInv 2 ⟨true, 0, 5⟩ ∧
    scrollTraceOK 2 ⟨true, 0, 5⟩
      [ScrollEvent.scroll 1, ScrollEvent.remove (some 1), ScrollEvent.scroll 0] ∧
    scrollInv 2 (scroll_run 2 ⟨true, 0, 5⟩
      [ScrollEvent.scroll 1, ScrollEvent.remove (some 1), ScrollEvent.scroll 0]) ∧
    ((0 : Int) ≤ 1 ∧ (1 : Int) ≤ 4 - 2) ∧
    ((0 ≤ do_app_scroll (scroll_dir_at 1 2 4 2) 1 4 ∧
      do_app_scroll (scroll_dir_at 1 2 4 2) 1 4 ≤ 4 - 2) ∧
     ((1 : Int) = 0 → do_app_scroll ScrollType.scroll_up 1 4 = 1) ∧
     ((1 : Int) = 4 - 2 → scroll_dir_at 1 2 4 2 ≠ ScrollType.scroll_down)) := by
  refine ⟨?_, ?_, ?_, ⟨by decide, by decide⟩, ?_⟩
  · intro _ h
    refine ⟨by decide, by decide⟩
  · refine ⟨trivial, Or.inr ⟨1, rfl, by decide, by decide⟩, trivial, trivial⟩
  · exact scroll_boundary.1 2 ⟨true, 0, 5⟩
      [ScrollEvent.scroll 1, ScrollEvent.remove (some 1), ScrollEvent.scroll 0]
      (fun _ h => ⟨by decide, by decide⟩)
      ⟨trivial, Or.inr ⟨1, rfl, by decide, by decide⟩, trivial, trivial⟩
  · exact scroll_boundary.2 1 2 4 2 (by decide) (by decide)

/-- C4 counterexample: removal at `scroll_index = 0` with capacity 5 and 5
remaining visible entries (trailing-gap condition holds) keeps scrolling
enabled and yields `scroll_index = -1`: the decrement is not floored at 0. -/
theorem removal_decrement_not_floored :
    remove_app_scroll_adjust 0 5 5 (some 2) = (true, -1) ∧ (-1 : Int) < 0 := by
  refine ⟨by decide, by decide⟩

/-- C4 (amended): when an entry is removed while scrolling stays enabled (the
remaining visible entries still fill the viewport), `scroll_index` is
decremented by exactly one - with no flooring at 0, so from 0 it becomes
`-1` - iff the removed entry's visible index was strictly before
`scroll_index` or the viewport now reaches to or past the end of the list
(`scroll_index + K >= N`, the source's trailing-gap test); otherwise it is
unchanged.  The same rule with the index test dropped applies when the
removed entry had no visible index. -/
theorem removal_scroll_adjust_spec :
    ∀ (si k n p : Int), k ≤ n →
      remove_app_scroll_adjust si k n (some p) =
        (true, if p < si ∨ si + k ≥ n then si - 1 else si) ∧
      remove_app_scroll_adjust si k n none =
        (true, if si + k ≥ n then si - 1 else si) := by
  intro si k n p hkn
  exact ⟨removal_scroll_adjust_some si k n p hkn, removal_scroll_adjust_none si k n hkn⟩

/-- Witness for the amended C4: removing the entry at visible index 0 while
`scroll_index = 2`, capacity 3, 5 entries remaining decrements to 1. -/
theorem removal_scroll_adjust_spec_witness :
    (3 : Int) ≤ 5 ∧
    (remove_app_scroll_adjust 2 3 5 (some 0) =
        (true, if (0 : Int) < 2 ∨ (2 : Int) + 3 ≥ 5 then 2 - 1 else 2) ∧
     remove_app_scroll_adjust 2 3 5 none =
        (true, if (2 : Int) + 3 ≥ 5 then 2 - 1 else 2)) :=
  ⟨by decide, removal_scroll_adjust_spec 2 3 5 0 (by decide)⟩

end Scroll

namespace Pinning

/-- Modelled from the spec: the entry state read by `unpin_app` and
`notify_cb` - a unique identity (Python object identity), the pinned flag,
whether the matcher reports the app as running (`is_running()`), and whether
it owns a window on the current workspace
(`has_windows_on_workspace(cur_ws)`). -/
structure PinApp where
  id : Nat
  is_pinned : Bool
  running : Bool
  has_windows_on_cur_ws : Bool
deriving Repr, DecidableEq

/-- Mutation of the Python object with the given identity, seen through
`app_list`: every alias of the object shows the new state. -/
def replace_by_id (l : List PinApp) (i : Nat) (a' : PinApp) : List PinApp :=
  l.map fun x => if x.id == i then a' else x

/-- Embedding of `self.app_list.remove(app)`: drop the first element with the
given identity. -/
def remove_by_id : List PinApp → Nat → List PinApp
  | [], _ => []
  | a :: rest, i => if a.id == i then rest else a :: remove_by_id rest i

/-- Embedding of `Dock.move_app`, restricted to its effect on `app_list`:
remove the entry and re-insert it at `new_pos`. -/
def move_app (l : List PinApp) (a : PinApp) (new_pos : Nat) : List PinApp :=
  (remove_by_id l a.id).insertIdx new_pos a

/-- Embedding of `Dock.unpin_app`, restricted to its effect on `app_list` and
to the payload `[the_app, app_index]` passed to the undo notification: the
entry index is recorded, the pinned flag is cleared, a non-running entry is
removed, and with per-workspace pinning a running entry without windows on
the current workspace is removed as well. -/
def unpin_app (l : List PinApp) (a : PinApp) (pa_on_all_ws : Bool) :
    List PinApp × PinApp × Nat :=
  let i := l.findIdx fun x => x.id == a.id
  let a' := { a with is_pinned := false }
  let l1 := replace_by_id l a.id a'
  let l2 := if a'.running then l1 else remove_by_id l1 a.id
  let l3 :=
    if !pa_on_all_ws && a'.running && !a'.has_windows_on_cur_ws then
      remove_by_id l2 a.id
    else l2
  (l3, a', i)

/-- Embedding of `Dock.notify_cb` (the notification's Undo action),
restricted to its effect on `app_list`: the entry is re-marked pinned; when
it is no longer in the dock it is appended and moved back to the recorded
index. -/
def notify_cb (l : List PinApp) (a : PinApp) (idx : Nat) : List PinApp :=
  let in_dock := l.any fun x => x.id == a.id
  let a' := { a with is_pinned := true }
  let l1 := replace_by_id l a.id a'
  if in_dock then l1
  else move_app (l1 ++ [a']) a' idx

theorem replace_by_id_nomatch {l : List PinApp} {i : Nat} {a' : PinApp}
    (h : ∀ x ∈ l, x.id ≠ i) : replace_by_id l i a' = l := by
  induction l with
  | nil => rfl
  | cons x rest ih =>
    rw [replace_by_id, List.map_cons,
      if_neg (by simp [h x (List.mem_cons_self _ _)])]
    rw [replace_by_id] at ih
    rw [ih fun y hy => h y (List.mem_cons_of_mem _ hy)]

theorem replace_by_id_at {l1 l2 : List PinApp} {a a' : PinApp}
    (h1 : ∀ x ∈ l1, x.id ≠ a.id) (h2 : ∀ x ∈ l2, x.id ≠ a.id) :
    replace_by_id (l1 ++ a :: l2) a.id a' = l1 ++ a' :: l2 := by
  rw [replace_by_id, List.map_append, List.map_cons, if_pos (by simp)]
  rw [show List.map (fun x => if (x.id == a.id) = true then a' else x) l1 =
      replace_by_id l1 a.id a' from rfl, replace_by_id_nomatch h1]
  rw [show List.map (fun x => if (x.id == a.id) = true then a' else x) l2 =
      replace_by_id l2 a.id a' from rfl, replace_by_id_nomatch h2]

theorem remove_by_id_nomatch {l : List PinApp} {i : Nat}
    (h : ∀ x ∈ l, x.id ≠ i) : remove_by_id l i = l := by
  induction l with
  | nil => rfl
  | cons x rest ih =>
    rw [remove_by_id, if_neg (by simp [h x (List.mem_cons_self _ _)])]
    rw [ih fun y hy => h y (List.mem_cons_of_mem _ hy)]

theorem remove_by_id_at {l1 l2 : List PinApp} {b : PinApp} {i : Nat}
    (h1 : ∀ x ∈ l1, x.id ≠ i) (hb : b.id = i) :
    remove_by_id (l1 ++ b :: l2) i = l1 ++ l2 := by
  induction l1 with
  | nil =>
    rw [List.nil_append, remove_by_id, if_pos (by simp [hb]), List.nil_append]
  | cons x rest ih =>
    rw [List.cons_append, remove_by_id,
      if_neg (by simp [h1 x (List.mem_cons_self _ _)]),
      ih fun y hy => h1 y (List.mem_cons_of_mem _ hy), List.cons_append]

theorem any_id_nomatch {l : List PinApp} {i : Nat}
    (h : ∀ x ∈ l, x.id ≠ i) : (l.any fun x => x.id == i) = false := by
  rw [List.any_eq_false]
  intro x hx
  simp [h x hx]

theorem findIdx_id_at {l1 l2 : List PinApp} {a : PinApp}
    (h1 : ∀ x ∈ l1, x.id ≠ a.id) :
    ((l1 ++ a :: l2).findIdx fun x => x.id == a.id) = l1.length := by
  induction l1 with
  | nil => simp [List.findIdx_cons]
  | cons x rest ih =>
    rw [List.cons_append, List.findIdx_cons]
    simp only [h1 x (List.mem_cons_self _ _), beq_iff_eq, if_neg, cond_eq_if]
    rw [if_neg (by simp [h1 x (List.mem_cons_self _ _)]),
      ih fun y hy => h1 y (List.mem_cons_of_mem _ hy), List.length_cons]

theorem insertIdx_at (l1 l2 : List PinApp) (a : PinApp) :
    (l1 ++ l2).insertIdx l1.length a = l1 ++ a :: l2 := by
  induction l1 with
  | nil => rfl
  | cons x rest ih =>
    rw [List.cons_append, List.length_cons, List.insertIdx_succ_cons, ih,
      List.cons_append]

theorem pin_restore {a : PinApp} (hp : a.is_pinned = true) :
    ({ ({ a with is_pinned := false }) with is_pinned := true } : PinApp) = a := by
  cases a
  simp at hp
  rw [hp]

/-- C5: unpinning the entry at index `i` and invoking the notification's Undo
action re-marks it pinned and restores it to exactly index `i` of `app_list`,
re-inserting the entry when the unpin had removed it; the whole list returns
to its original state.  Hypotheses: the entry was pinned and object
identities in the list are unique. -/
theorem unpin_undo_round_trip :
    ∀ (l1 l2 : List PinApp) (a : PinApp) (paws : Bool),
      a.is_pinned = true →
      (∀ x ∈ l1, x.id ≠ a.id) → (∀ x ∈ l2, x.id ≠ a.id) →
      (unpin_app (l1 ++ a :: l2) a paws).2.2 = l1.length ∧
      notify_cb (unpin_app (l1 ++ a :: l2) a paws).1
          (unpin_app (l1 ++ a :: l2) a paws).2.1
          (unpin_app (l1 ++ a :: l2) a paws).2.2 =
        l1 ++ a :: l2 := by
  intro l1 l2 a paws hp h1 h2
  have hidx : ((l1 ++ a :: l2).findIdx fun x => x.id == a.id) = l1.length :=
    findIdx_id_at h1
  have hrep : replace_by_id (l1 ++ a :: l2) a.id { a with is_pinned := false } =
      l1 ++ { a with is_pinned := false } :: l2 := replace_by_id_at h1 h2
  have hkept : notify_cb (l1 ++ { a with is_pinned := false } :: l2) { a with is_pinned := false }
      l1.length = l1 ++ a :: l2 := by
    rw [notify_cb]
    simp only []
    rw [if_pos]
    · have hrepl : replace_by_id (l1 ++ ({ a with is_pinned := false } : PinApp) :: l2)
          ({ a with is_pinned := false } : PinApp).id
          { ({ a with is_pinned := false } : PinApp) with is_pinned := true } =
          l1 ++ ({ ({ a with is_pinned := false } : PinApp) with is_pinned := true }) :: l2 :=
        replace_by_id_at (a := { a with is_pinned := false }) h1 h2
      rw [hrepl, pin_restore hp]
    · rw [List.any_append]
      simp [List.any_cons]
  have hremoved : notify_cb (l1 ++ l2) { a with is_pinned := false } l1.length =
      l1 ++ a :: l2 := by
    rw [notify_cb]
    simp only []
    rw [if_neg]
    · rw [replace_by_id_nomatch (by
        intro x hx
        rcases List.mem_append.1 hx with hx1 | hx2
        · exact h1 x hx1
        · exact h2 x hx2)]
      rw [move_app]
      have hrm : remove_by_id ((l1 ++ l2) ++
          [{ ({ a with is_pinned := false } : PinApp) with is_pinned := true }])
          ({ ({ a with is_pinned := false } : PinApp) with is_pinned := true }).id =
          (l1 ++ l2) ++ [] :=
        remove_by_id_at (b := { ({ a with is_pinned := false } : PinApp) with
          is_pinned := true }) (by
            intro x hx
            rcases List.mem_append.1 hx with hx1 | hx2
            · exact h1 x hx1
            · exact h2 x hx2) rfl
      rw [hrm]
      rw [List.append_nil, insertIdx_at, pin_restore hp]
    · rw [any_id_nomatch (by
        intro x hx
        rcases List.mem_append.1 hx with hx1 | hx2
        · exact h1 x hx1
        · exact h2 x hx2)]
      simp
  rw [unpin_app]
  simp only []
  rw [hidx, hrep]
  refine ⟨rfl, ?_⟩
  by_cases hr : ({ a with is_pinned := false } : PinApp).running = true
  · rw [if_pos hr]
    by_cases hw : (!paws && ({ a with is_pinned := false } : PinApp).running &&
        !({ a with is_pinned := false } : PinApp).has_windows_on_cur_ws) = true
    · rw [if_pos hw]
      rw [remove_by_id_at (b := { a with is_pinned := false }) h1 rfl]
      exact hremoved
    · rw [if_neg hw]
      exact hkept
  · rw [if_neg hr]
    rw [remove_by_id_at (b := { a with is_pinned := false }) h1 rfl]
    rw [if_neg (by simp [Bool.not_eq_true] at hr; simp [hr])]
    exact hremoved

/-- Witness for C5 on a concrete dock: unpin the non-running pinned entry at
index 1 (it is removed) and undo re-inserts it exactly there. -/
theorem unpin_undo_round_trip_witness :
    (⟨7, true, false, false⟩ : PinApp).is_pinned = true ∧
    (unpin_app ([⟨1, true, true, true⟩] ++ ⟨7, true, false, false⟩ ::
        [⟨2, false, true, true⟩]) ⟨7, true, false, false⟩ true).2.2 =
      [(⟨1, true, true, true⟩ : PinApp)].length ∧
    notify_cb
        (unpin_app ([⟨1, true, true, true⟩] ++ ⟨7, true, false, false⟩ ::
          [⟨2, false, true, true⟩]) ⟨7, true, false, false⟩ true).1
        (unpin_app ([⟨1, true, true, true⟩] ++ ⟨7, true, false, false⟩ ::
          [⟨2, false, true, true⟩]) ⟨7, true, false, false⟩ true).2.1
        (unpin_app ([⟨1, true, true, true⟩] ++ ⟨7, true, false, false⟩ ::
          [⟨2, false, true, true⟩]) ⟨7, true, false, false⟩ true).2.2 =
      [⟨1, true, true, true⟩] ++ ⟨7, true, false, false⟩ :: [⟨2, false, true, true⟩] :=
  ⟨rfl,
    unpin_undo_round_trip [⟨1, true, true, true⟩] [⟨2, false, true, true⟩]
      ⟨7, true, false, false⟩ true rfl (by decide) (by decide)⟩

end Pinning

namespace Drag

/-- Trigger position for a drag moving toward increasing coordinates over an
icon whose leading edge is at `ax`: 40% of the dragged icon's size past the
leading edge (`trig_val = ax + (drawing_area_size * 40) / 100`). -/
def trig_right (ax w : Rat) : Rat := ax + (w * 40) / 100

/-- Trigger position for a drag moving toward decreasing coordinates
(`trig_val = ax + drawing_area_size - (drawing_area_size * 40) / 100`). -/
def trig_left (ax w : Rat) : Rat := ax + w - (w * 40) / 100

/-- One sample of `DragMotionTimer.do_timer` while the pointer is over a dock
icon other than the dragee (horizontal orientation): with the previous
position `old` (the `-1` sentinel means no previous sample) and the sampled
position `x`, returns whether `move_app` is called and the new
`old_drag_pos`, which is always the sampled position. -/
def drag_tick (w ax old x : Rat) : Bool × Rat :=
  if old = -1 then (false, x)
  else if x > old then
    (decide (old < trig_right ax w ∧ trig_right ax w ≤ x), x)
  else
    (decide (trig_left ax w < old ∧ x ≤ trig_left ax w), x)

/-- The move decisions of a whole run of drag-motion samples. -/
def drag_run (w ax : Rat) : Rat → List Rat → List Bool
  | _, [] => []
  | old, x :: xs =>
    (drag_tick w ax old x).1 :: drag_run w ax (drag_tick w ax old x).2 xs

theorem drag_tick_snd (w ax old x : Rat) : (drag_tick w ax old x).2 = x := by
  rw [drag_tick]
  split_ifs <;> rfl

theorem drag_run_past_threshold (w ax : Rat) :
    ∀ (xs : List Rat) (old : Rat), 0 ≤ old → List.Chain (· < ·) old xs →
      trig_right ax w ≤ old → (drag_run w ax old xs).count true = 0 := by
  intro xs
  induction xs with
  | nil => intro old _ _ _; rfl
  | cons x rest ih =>
    intro old h0 hc ht
    rw [List.chain_cons] at hc
    rw [drag_run, drag_tick, if_neg (by intro h; rw [h] at h0; norm_num at h0),
      if_pos hc.1]
    simp only [decide_eq_true_eq]
    rw [List.count_cons]
    have hflag : ¬(old < trig_right ax w ∧ trig_right ax w ≤ x) := by
      intro h
      exact absurd h.1 (not_lt.2 ht)
    rw [ih x (by linarith [hc.1]) hc.2 (by linarith [hc.1])]
    simp [hflag]

/-- C6: during a drag moving toward increasing coordinates over a target icon
with leading edge `ax` and dragged-icon size `w`, starting below the
threshold `ax + 0.4*w`: a move is committed at a sample exactly when the
previous position was below the threshold and the sample is at or past it
(in particular never while the sampled position is below the threshold), and
over the whole run exactly one move is committed - at the first sample past
the threshold - or none when the threshold is never reached. -/
theorem drag_threshold_single_move :
    ∀ (w ax : Rat) (xs : List Rat) (old : Rat), 0 ≤ old →
      List.Chain (· < ·) old xs →
      ((drag_run w ax old xs).count true =
        if old < trig_right ax w ∧ ∃ x ∈ xs, trig_right ax w ≤ x then 1 else 0) ∧
      (∀ i, i < xs.length →
        (drag_run w ax old xs).getD i false =
          decide ((old :: xs).getD i 0 < trig_right ax w ∧
            trig_right ax w ≤ xs.getD i 0)) := by
  intro w ax xs
  induction xs with
  | nil =>
    intro old h0 hc
    constructor
    · simp [drag_run]
    · intro i hi
      exact absurd hi (by simp)
  | cons x rest ih =>
    intro old h0 hc
    rw [List.chain_cons] at hc
    have hx0 : (0 : Rat) ≤ x := le_of_lt (lt_of_le_of_lt h0 hc.1)
    have htick : drag_tick w ax old x =
        (decide (old < trig_right ax w ∧ trig_right ax w ≤ x), x) := by
      rw [drag_tick, if_neg (by intro h; rw [h] at h0; norm_num at h0),
        if_pos hc.1]
    constructor
    · rw [drag_run, htick]
      simp only [List.count_cons, beq_iff_eq, decide_eq_true_eq]
      by_cases hot : old < trig_right ax w
      · by_cases hxt : trig_right ax w ≤ x
        · rw [drag_run_past_threshold w ax rest x hx0 hc.2 hxt,
            if_pos ⟨hot, hxt⟩, if_pos ⟨hot, x, List.mem_cons_self _ _, hxt⟩]
        · have hxlt : x < trig_right ax w := lt_of_not_le hxt
          rw [if_neg (fun h => hxt h.2), Nat.add_zero, (ih x hx0 hc.2).1]
          by_cases hex : ∃ y ∈ rest, trig_right ax w ≤ y
          · rw [if_pos ⟨hxlt, hex⟩]
            obtain ⟨y, hy, hty⟩ := hex
            rw [if_pos ⟨hot, y, List.mem_cons_of_mem _ hy, hty⟩]
          · rw [if_neg (fun h => hex h.2), if_neg (fun h => ?_)]
            obtain ⟨_, y, hy, hty⟩ := h
            rcases List.mem_cons.1 hy with rfl | hy'
            · exact hxt hty
            · exact hex ⟨y, hy', hty⟩
      · have hto : trig_right ax w ≤ old := le_of_not_lt hot
        rw [drag_run_past_threshold w ax rest x hx0 hc.2
            (le_of_lt (lt_of_le_of_lt hto hc.1)),
          if_neg (fun h => hot h.1), if_neg (fun h => hot h.1)]
    · intro i hi
      cases i with
      | zero =>
        rw [drag_run, htick]
        simp
      | succ j =>
        rw [drag_run, htick]
        simp only [List.getD_cons_succ]
        have := (ih x hx0 hc.2).2 j (by simpa using hi)
        exact this

/-- Witness for C6: dragged-icon size 50 over an icon with leading edge 100
(threshold 120), previous position 90, increasing samples 110, 125, 130:
exactly one move, committed at the sample 125. -/
theorem drag_threshold_single_move_witness :
    ((0 : Rat) ≤ 90 ∧ List.Chain (· < ·) (90 : Rat) [110, 125, 130]) ∧
    ((drag_run 50 100 90 [110, 125, 130]).count true =
      if (90 : Rat) < trig_right 100 50 ∧ ∃ x ∈ ([110, 125, 130] : List Rat),
        trig_right 100 50 ≤ x then 1 else 0) ∧
    (∀ i, i < ([110, 125, 130] : List Rat).length →
      (drag_run 50 100 90 [110, 125, 130]).getD i false =
        decide (((90 : Rat) :: [110, 125, 130]).getD i 0 < trig_right 100 50 ∧
          trig_right 100 50 ≤ ([110, 125, 130] : List Rat).getD i 0)) :=
  ⟨⟨by norm_num, by norm_num⟩,
    drag_threshold_single_move 50 100 [110, 125, 130] 90 (by norm_num)
      (by norm_num)⟩

/-- One tick of `DragMotionTimer.do_timer` seen at the drag-ended check:
when `drag_ended` is observed the timer id is removed and the callback
returns `False` without reaching any `move_app` call; otherwise the tick
runs (possibly committing a move) and returns `True`.  The first component
is the returned liveness, the second whether `move_app` was called. -/
def do_timer_step (drag_ended would_move : Bool) : Bool × Bool :=
  if drag_ended then (false, false) else (true, would_move)

/-- A run of the GObject timeout: each scheduled tick executes only while
every earlier tick returned `True`; a tick returning `False` removes the
timer, so no later tick runs.  Returns the `move_app` decisions of the ticks
that actually executed. -/
def run_ticks : List (Bool × Bool) → List Bool
  | [] => []
  | t :: rest =>
    if (do_timer_step t.1 t.2).1 then
      (do_timer_step t.1 t.2).2 :: run_ticks rest
    else
      [(do_timer_step t.1 t.2).2]

/-- C8: once the external release signal sets `drag_ended`
(`stop_drag_motion_timer`), the first tick observing it performs no move and
stops the timer, and no tick after it executes: the executed moves are
exactly those of the ticks before the flag was set, followed by one
move-free final tick. -/
theorem drag_end_stops_moves :
    ∀ (pre : List (Bool × Bool)) (m : Bool) (post : List (Bool × Bool)),
      (∀ t ∈ pre, t.1 = false) →
      run_ticks (pre ++ (true, m) :: post) = pre.map (fun t => t.2) ++ [false] := by
  intro pre m post hpre
  induction pre with
  | nil =>
    rw [List.nil_append, run_ticks, do_timer_step, if_pos rfl]
    simp only []
    rw [if_neg (by simp)]
    rfl
  | cons t rest ih =>
    have ht : t.1 = false := hpre t (List.mem_cons_self _ _)
    rw [List.cons_append, run_ticks, do_timer_step, ht]
    rw [if_neg (fun h => Bool.false_ne_true h)]
    rw [if_pos rfl,
      ih fun y hy => hpre y (List.mem_cons_of_mem _ hy),
      List.map_cons, List.cons_append]

/-- Witness for C8: two live ticks (one of which moves), then the release
signal; the flagged tick and the one scheduled after it contribute no move. -/
theorem drag_end_stops_moves_witness :
    (∀ t ∈ ([(false, true), (false, false)] : List (Bool × Bool)), t.1 = false) ∧
    run_ticks ([(false, true), (false, false)] ++ (true, true) :: [(false, true)]) =
      [(false, true), (false, false)].map (fun t => t.2) ++ [false] :=
  ⟨by decide, drag_end_stops_moves [(false, true), (false, false)] true
    [(false, true)] (by decide)⟩

end Drag

namespace Workspaces

/-- Embedding of `Dock.app_is_pinned_to_workspace`: returns the workspace
name (`config[1]`) of the first per-workspace pinned-app configuration whose
tuple contains the app's desktop-file basename, or `""` when there is none or
the app has no desktop file.  The source's second disjunct
(`app.desktop_file in self.pa_configs`) compares a string against the
configuration lists and is therefore always false; it is dropped here. -/
def app_is_pinned_to_workspace (pa_configs : List (List String))
    (app_df : Option String) : String :=
  match app_df with
  | none => ""
  | some f =>
    match pa_configs.find? fun config => config.contains (basename f) with
    | some config => config.getD 1 ""
    | none => ""

/-- Embedding of the visibility decision of `Dock.show_or_hide_app_icons`
for a single unpinned entry: with "show unpinned apps from all workspaces"
and a global pinned set everything is shown; with per-workspace pinned sets
the entry is hidden whenever it appears in any workspace configuration (the
current workspace's name is computed by the source but never compared);
otherwise visibility follows having a window on the current workspace. -/
def show_or_hide_unpinned (show_all_apps pa_on_all_ws : Bool)
    (pa_configs : List (List String)) (cur_ws_name : String)
    (has_win_cur_ws : Bool) (app_df : Option String) : Bool :=
  if show_all_apps then
    if pa_on_all_ws then true
    else app_is_pinned_to_workspace pa_configs app_df == ""
  else has_win_cur_ws

/-- C7 evidence: an unpinned entry whose desktop file is listed in the
per-workspace configuration of the CURRENT workspace ("ws1") is hidden by
the code - `app_is_pinned_to_workspace` returns "ws1", equal to the current
workspace's name, yet the icon is hidden because the hide test only compares
the result against `""`.  The claim requires such an entry to stay
visible. -/
theorem pinned_to_current_ws_hidden :
    app_is_pinned_to_workspace [["conf1", "ws1", "pluma.desktop"]]
        (some "pluma.desktop") = "ws1" ∧
    show_or_hide_unpinned true false [["conf1", "ws1", "pluma.desktop"]] "ws1"
        true (some "pluma.desktop") = false :=
  ⟨rfl, rfl⟩

end Workspaces

namespace Unity

/-- The optional fields of a Unity API dbus message. -/
structure UnityArgs where
  count : Option Int
  count_visible : Option Bool
  progress : Option Rat
  progress_visible : Option Bool
deriving Repr, DecidableEq

/-- Modelled from the spec: the badge state of a docked entry updated by the
progress/badge protocol - the desktop file plus counter and progress values
with their visibility flags (`set_counter_value` etc. live in the
`docked_app` module, which is not part of this source file). -/
structure UnityApp where
  desktop_file : Option String
  counter_value : Int
  counter_visible : Bool
  progress_value : Rat
  progress_visible : Bool
deriving Repr, DecidableEq

/-- Application of the optional message fields to the matched entry. -/
def apply_args (app : UnityApp) (args : UnityArgs) : UnityApp :=
  { app with
    counter_visible := args.count_visible.getD app.counter_visible
    counter_value := args.count.getD app.counter_value
    progress_visible := args.progress_visible.getD app.progress_visible
    progress_value := args.progress.getD app.progress_value }

/-- The loop of `Dock.unity_cb_handler`: for each entry the code evaluates
`os.path.split(app.desktop_file)`, which raises `TypeError` when the entry
has no desktop file; otherwise the first entry whose basename equals the
message's desktop-file name is updated and the loop breaks. -/
def unity_cb_loop : List UnityApp → String → UnityArgs → Except Unit (List UnityApp)
  | [], _, _ => .ok []
  | app :: rest, df, args =>
    match app.desktop_file with
    | none => .error ()
    | some f =>
      if basename f == df then .ok (apply_args app args :: rest)
      else
        match unity_cb_loop rest df args with
        | .ok rest' => .ok (app :: rest')
        | .error e => .error e

/-- Embedding of `df = app_uri.split("://")[1]`: the characters after the
first `://`; its absence raises `IndexError` in the source, modelled as
`none`. -/
def after_uri_scheme : List Char → Option (List Char)
  | [] => none
  | ':' :: '/' :: '/' :: rest => some rest
  | _ :: rest => after_uri_scheme rest

/-- Embedding of `Dock.unity_cb_handler`: strip the URI scheme and update the
first entry with a matching desktop-file basename; an exception escapes the
handler as `.error`. -/
def unity_cb_handler (l : List UnityApp) (app_uri : String) (args : UnityArgs) :
    Except Unit (List UnityApp) :=
  match after_uri_scheme app_uri.data with
  | none => .error ()
  | some dfChars => unity_cb_loop l (String.mk dfChars) args

/-- C9 evidence: with an entry that has no desktop file in `app_list` (the
dock creates such entries for unmatched applications), processing any badge
message raises `TypeError` from `os.path.split(None)` and aborts the
handler - even though a matching entry follows; with every entry carrying a
desktop file the handler updates exactly the first basename match. -/
theorem unity_message_aborts_on_no_desktop_file :
    unity_cb_handler
        [⟨none, 0, false, 0, false⟩, ⟨some "usr/pluma.desktop", 0, false, 0, false⟩]
        "application://pluma.desktop" ⟨some 3, some true, none, none⟩ =
      Except.error () ∧
    unity_cb_handler
        [⟨some "usr/pluma.desktop", 0, false, 0, false⟩]
        "application://pluma.desktop" ⟨some 3, some true, none, none⟩ =
      Except.ok [⟨some "usr/pluma.desktop", 3, true, 0, false⟩] :=
  ⟨rfl, rfl⟩

end Unity

end MateDock
